import Mathlib

/-!
Shallow embedding of the doorprize-app draw engine.

The source of truth is the repository's TypeScript route handlers and the
Prisma SQL migration:

* the SQL migration declares the tables `Session`, `Contestant`, `Prize`,
  `Draw`, `Winner` and the unique index `Winner_contestantId_key` on
  `Winner.contestantId`;
* the draws route `POST` handler validates the route/session, parses the
  body with a zod schema (`prizeId : string.min(1)`,
  `quantity : coerce.number().int().min(1)`), looks up the prize, loads the
  eligible contestants (`winner: null`), rejects `quantity > eligibleCount`,
  shuffles with an in-place Fisher-Yates loop, takes the first `quantity`
  entries, and inside one transaction creates a `Draw` row plus one `Winner`
  row per selected contestant; a Prisma `P2002` unique-constraint failure is
  mapped to HTTP 409;
* the prizes route `GET` handler reports, per prize,
  `alreadyDrawn = sum of winner counts over the session draws of that prize`
  and `remaining = Math.max(quantity - alreadyDrawn, 0)`.

Machine integers of the source are embedded as `Nat`/`Int`; the store is
explicit state, randomness is an explicit list of chosen indices, and the
fallible endpoint returns `Except`.
-/

namespace Doorprize

/-- A session row; only the primary key matters for the draw engine. -/
structure Session where
  id : String
deriving DecidableEq, Repr

/-- A `Contestant` row: primary key, owning session, display name. -/
structure Contestant where
  id : String
  sessionId : String
  name : String
deriving DecidableEq, Repr

/-- A `Prize` row: primary key, owning session, name, declared quantity. -/
structure Prize where
  id : String
  sessionId : String
  name : String
  quantity : Nat
deriving DecidableEq, Repr

/-- A `Draw` row: primary key, owning session, target prize. -/
structure Draw where
  id : String
  sessionId : String
  prizeId : String
deriving DecidableEq, Repr

/-- A `Winner` row: primary key, owning draw, the contestant reference
(`Winner_contestantId_key` makes it unique), denormalized prize name. -/
structure Winner where
  id : String
  drawId : String
  contestantId : String
  prizeName : String
deriving DecidableEq, Repr

/-- The relational store backing the routes. -/
structure Store where
  sessions : List Session
  contestants : List Contestant
  prizes : List Prize
  draws : List Draw
  winners : List Winner
deriving DecidableEq, Repr

/-- `true` when some `Winner` row references the contestant: the negation of
Prisma's `winner: null` filter. -/
def hasWinner (s : Store) (cid : String) : Bool :=
  s.winners.any (fun w => w.contestantId == cid)

/-- `prisma.contestant.findMany({ where: { sessionId, winner: null } })`. -/
def eligibleContestants (s : Store) (sessionId : String) : List Contestant :=
  s.contestants.filter (fun c => c.sessionId == sessionId && !(hasWinner s c.id))

/-- `prisma.prize.findFirst({ where: { id: prizeId, sessionId } })`. -/
def findPrize (s : Store) (sessionId prizeId : String) : Option Prize :=
  s.prizes.find? (fun p => p.id == prizeId && p.sessionId == sessionId)

/-- `prisma.session.findUnique({ where: { id: sessionId } })` as existence. -/
def sessionExists (s : Store) (sessionId : String) : Bool :=
  s.sessions.any (fun x => x.id == sessionId)

/-- The `quantity` field of the request body, before zod coercion.
`z.coerce.number()` applies JavaScript `Number(-)`: a number stays itself,
a numeric string becomes the number it denotes, any other string becomes
`NaN` (or a non-integer), and `.int()` then rejects non-integers. -/
inductive QuantityInput where
  /-- a JSON number that is an integer -/
  | intVal (n : Int)
  /-- a JSON number that is not an integer -/
  | nonIntNumber
  /-- a JSON string that `Number(-)` parses to an integer -/
  | intString (n : Int)
  /-- a JSON string that `Number(-)` parses to `NaN` or a non-integer -/
  | nonNumericString
deriving DecidableEq, Repr

/-- `z.coerce.number().int()`: the integer value if coercion and the
integrality check succeed. -/
def coerceQuantity : QuantityInput → Option Int
  | .intVal n => some n
  | .intString n => some n
  | .nonIntNumber => none
  | .nonNumericString => none

/-- The parsed JSON request body of the draws `POST` handler. -/
structure DrawBody where
  prizeId : String
  quantity : QuantityInput
deriving DecidableEq, Repr

/-- The raw request body: either malformed JSON or a parsed object. -/
inductive BodyInput where
  | malformed
  | parsed (body : DrawBody)
deriving DecidableEq, Repr

/-- `drawSchema.parse`: `prizeId` must be a nonempty string and `quantity`
must coerce to an integer that is at least 1. -/
def validateBody : BodyInput → Option (String × Int)
  | .malformed => none
  | .parsed b =>
    if b.prizeId.length ≥ 1 then
      match coerceQuantity b.quantity with
      | some n => if n ≥ 1 then some (b.prizeId, n) else none
      | none => none
    else none

/-- The JS in-place swap `[arr[i], arr[j]] = [arr[j], arr[i]]`; both indices
are in range whenever the Fisher-Yates loop performs it. -/
def listSwap (l : List α) (i j : Nat) : List α :=
  if h : i < l.length ∧ j < l.length then
    (l.set i (l.get ⟨j, h.2⟩)).set j (l.get ⟨i, h.1⟩)
  else l

/-- The loop body of `shuffle`: `for (let i = arr.length - 1; i > 0; i -= 1)`
with the random draw `j = Math.floor(Math.random() * (i + 1))` supplied by
the explicit list `rand` (one entry per iteration, for `i` descending). -/
def shuffleLoop : List α → List Nat → Nat → List α
  | arr, _, 0 => arr
  | arr, [], _ + 1 => arr
  | arr, j :: rest, i + 1 => shuffleLoop (listSwap arr (i + 1) j) rest i

/-- The `shuffle` function of the draws route: copy the array and run the
Fisher-Yates loop from index `length - 1` down to `1`. -/
def shuffle (items : List α) (rand : List Nat) : List α :=
  shuffleLoop items rand (items.length - 1)

/-- The winner rows built inside the transaction: one per selected
contestant, referencing the new draw and carrying the prize-name snapshot.
Primary keys are synthesized from the draw id (they play no role in any
claim; the store's unique key is on `contestantId`). -/
def mkWinners (drawId prizeName : String) (selected : List Contestant) : List Winner :=
  selected.enum.map (fun p =>
    { id := drawId ++ "#" ++ toString p.1
      drawId := drawId
      contestantId := p.2.id
      prizeName := prizeName })

/-- The transactional write: insert the draw row and the winner batch.  The
store's unique index `Winner_contestantId_key` accepts the batch only when
the new contestant references are pairwise distinct and none collides with
an existing `Winner` row; otherwise the whole transaction rolls back
(`none`). -/
def commitDrawWinners (s : Store) (d : Draw) (ws : List Winner) : Option Store :=
  if (ws.map (fun w => w.contestantId)).Nodup ∧
      ∀ w ∈ ws, hasWinner s w.contestantId = false then
    some { s with draws := s.draws ++ [d], winners := s.winners ++ ws }
  else none

/-- The distinct error outcomes of the draws `POST` handler. -/
inductive DrawError where
  /-- 400: no session id in the route -/
  | routeMissing
  /-- 404 "Session not found" -/
  | sessionNotFound
  /-- 400: malformed JSON or failed zod validation -/
  | invalidBody
  /-- 404 "Prize not found" -/
  | prizeNotFound
  /-- 400 "Requested quantity exceeds eligible contestants" -/
  | quantityExceedsEligible
  /-- 409 "Contestant already has a prize. Please refresh and try again." -/
  | conflict
deriving DecidableEq, Repr

/-- The HTTP status the handler attaches to each error. -/
def httpStatus : DrawError → Nat
  | .routeMissing => 400
  | .sessionNotFound => 404
  | .invalidBody => 400
  | .prizeNotFound => 404
  | .quantityExceedsEligible => 400
  | .conflict => 409

/-- One element of the success JSON's `winners` array. -/
structure WinnerView where
  contestantId : String
  name : String
  prizeName : String
deriving DecidableEq, Repr

/-- The success JSON of the draws `POST` handler. -/
structure DrawResponse where
  drawId : String
  sessionId : String
  prizeId : String
  prizeName : String
  requestedQuantity : Int
  eligibleBefore : Nat
  winners : List WinnerView
deriving DecidableEq, Repr

/-- The kinds of store accesses the draws `POST` handler performs, in
order: the session existence read, the prize read, the eligible-contestant
read, and the transactional draw+winners write. -/
inductive Access where
  | readSession
  | readPrize
  | readContestants
  | writeDrawWinners
deriving DecidableEq, Repr

/-- The draws `POST` handler.  `readS` is the store snapshot the three reads
observe; `commitS` is the store the transactional write commits against (the
two coincide for an uncontended call, and differ when a concurrent draw
commits between this call's reads and its write).  `rand` supplies the
`Math.random` draws of the shuffle and `drawId` the generated draw key.
Returns the HTTP outcome, the store after the call, and the ordered list of
store accesses performed. -/
def runDrawCore (readS commitS : Store) (sessionId : String) (body : BodyInput)
    (rand : List Nat) (drawId : String) :
    Except DrawError DrawResponse × Store × List Access :=
  if sessionId = "" then (.error .routeMissing, commitS, [])
  else if sessionExists readS sessionId = false then
    (.error .sessionNotFound, commitS, [.readSession])
  else
    match validateBody body with
    | none => (.error .invalidBody, commitS, [.readSession])
    | some (pid, q) =>
      match findPrize readS sessionId pid with
      | none => (.error .prizeNotFound, commitS, [.readSession, .readPrize])
      | some prize =>
        let eligible := eligibleContestants readS sessionId
        let n := eligible.length
        if q > (n : Int) then
          (.error .quantityExceedsEligible, commitS,
            [.readSession, .readPrize, .readContestants])
        else
          let selected := (shuffle eligible rand).take q.toNat
          let ws := mkWinners drawId prize.name selected
          match commitDrawWinners commitS ⟨drawId, sessionId, prize.id⟩ ws with
          | none =>
            (.error .conflict, commitS,
              [.readSession, .readPrize, .readContestants, .writeDrawWinners])
          | some s2 =>
            (.ok
              { drawId := drawId
                sessionId := sessionId
                prizeId := prize.id
                prizeName := prize.name
                requestedQuantity := q
                eligibleBefore := n
                winners := selected.map (fun c => ⟨c.id, c.name, prize.name⟩) },
              s2,
              [.readSession, .readPrize, .readContestants, .writeDrawWinners])

/-- The uncontended draws `POST` handler: reads and write see one store. -/
def runDraw (s : Store) (sessionId : String) (body : BodyInput)
    (rand : List Nat) (drawId : String) :
    Except DrawError DrawResponse × Store × List Access :=
  runDrawCore s s sessionId body rand drawId

/-- The error component of the handler outcome, if any. -/
def resultError : Except DrawError DrawResponse → Option DrawError
  | .error e => some e
  | .ok _ => none

/-- The success component of the handler outcome, if any. -/
def resultOk : Except DrawError DrawResponse → Option DrawResponse
  | .ok r => some r
  | .error _ => none

/-- The prizes route `GET` handler's `drawnMap` entry for one prize: the sum,
over the session's draws targeting the prize, of each draw's winner count. -/
def totalDrawnFor (s : Store) (sessionId pid : String) : Nat :=
  ((s.draws.filter (fun d => d.sessionId == sessionId && d.prizeId == pid)).map
    (fun d => (s.winners.filter (fun w => w.drawId == d.id)).length)).sum

/-- One element of the prizes route `GET` response. -/
structure PrizeView where
  id : String
  name : String
  quantity : Nat
  alreadyDrawn : Nat
  remaining : Nat
deriving DecidableEq, Repr

/-- The prizes route `GET` handler's response body: for each prize of the
session, `alreadyDrawn` is the recomputed winner total and
`remaining = Math.max(quantity - alreadyDrawn, 0)` (truncated subtraction). -/
def listPrizes (s : Store) (sessionId : String) : List PrizeView :=
  (s.prizes.filter (fun p => p.sessionId == sessionId)).map (fun p =>
    let drawn := totalDrawnFor s sessionId p.id
    { id := p.id
      name := p.name
      quantity := p.quantity
      alreadyDrawn := drawn
      remaining := p.quantity - drawn })

/-- One draws `POST` invocation in a concurrent schedule: the reads observe
`readStore` (a possibly stale snapshot), while the write commits against
whatever the store holds when the transaction runs. -/
structure DrawCall where
  readStore : Store
  sessionId : String
  body : BodyInput
  rand : List Nat
  drawId : String

/-- The store after one (possibly contended) draws `POST` call. -/
def applyCall (s : Store) (c : DrawCall) : Store :=
  (runDrawCore c.readStore s c.sessionId c.body c.rand c.drawId).2.1

/-- The store after a sequence of draws `POST` calls, each read snapshot
arbitrary: this covers every interleaving of successful and failed draws. -/
def applyCalls (s : Store) (cs : List DrawCall) : Store :=
  cs.foldl applyCall s

/-- `validRand n rand` holds when `rand` is exactly the sequence of values
`Math.floor(Math.random() * (i + 1))` can take in the shuffle loop over an
array of length `n`: one entry per index `i = n - 1, …, 1`, the entry for
`i` lying in `[0, i]`. -/
def validRand : Nat → List Nat → Bool
  | 0, r => r.isEmpty
  | 1, r => r.isEmpty
  | _ + 2, [] => false
  | n + 2, j :: rest => decide (j ≤ n + 1) && validRand (n + 1) rest

/-- All valid random-choice sequences for an array of length `n`; the shuffle
loop draws each entry independently and uniformly, so under the source's
randomness assumption each element of this list is equally likely. -/
def allValidRands : Nat → List (List Nat)
  | 0 => [[]]
  | 1 => [[]]
  | n + 2 =>
    (List.range (n + 2)).flatMap (fun j =>
      (allValidRands (n + 1)).map (fun r => j :: r))

/-- A small concrete store: one session `s1` with the given rows. -/
def mkStore (cs : List Contestant) (ps : List Prize) (ds : List Draw)
    (ws : List Winner) : Store :=
  { sessions := [⟨"s1"⟩], contestants := cs, prizes := ps, draws := ds
    winners := ws }

/-- Demo store: three eligible contestants and one prize of quantity 1. -/
def demoStore : Store :=
  mkStore
    [⟨"c1", "s1", "Alice"⟩, ⟨"c2", "s1", "Bob"⟩, ⟨"c3", "s1", "Carol"⟩]
    [⟨"p1", "s1", "Mug", 1⟩] [] []

/-- Demo request body asking prize `p1` for two winners. -/
def demoBody : BodyInput := .parsed ⟨"p1", .intVal 2⟩

/-- A store in which contestant `c1` has already won (one draw, one winner). -/
def wonStore : Store :=
  mkStore
    [⟨"c1", "s1", "Alice"⟩, ⟨"c2", "s1", "Bob"⟩, ⟨"c3", "s1", "Carol"⟩]
    [⟨"p1", "s1", "Mug", 1⟩]
    [⟨"d0", "s1", "p1"⟩]
    [⟨"w0", "d0", "c1", "Mug"⟩]

/-- C2: if the draws `POST` handler returns an error — for any read snapshot,
commit-time store, body, randomness and draw id — the store after the call is
the store before it, so in particular the set of `Winner` rows for the
session is unchanged: nothing from the failed attempt is partially
committed. -/
theorem draw_error_atomic (readS s : Store) (sessionId : String)
    (body : BodyInput) (rand : List Nat) (drawId : String) (e : DrawError)
    (h : (runDrawCore readS s sessionId body rand drawId).1 = .error e) :
    (runDrawCore readS s sessionId body rand drawId).2.1 = s ∧
    ((runDrawCore readS s sessionId body rand drawId).2.1).winners =
      s.winners := by
  revert h
  unfold runDrawCore
  dsimp only
  repeat' split
  all_goals intro h
  all_goals simp_all

/-- Witness for C2: a concrete failed call (unknown session) leaves the
store untouched. -/
theorem draw_error_atomic_witness :
    (runDrawCore demoStore demoStore "nope" demoBody [] "d1").1 =
      .error .sessionNotFound ∧
    (runDrawCore demoStore demoStore "nope" demoBody [] "d1").2.1 =
      demoStore ∧
    ((runDrawCore demoStore demoStore "nope" demoBody [] "d1").2.1).winners =
      demoStore.winners := by
  refine ⟨rfl, ?_⟩
  exact draw_error_atomic demoStore demoStore "nope" demoBody [] "d1"
    .sessionNotFound rfl

/-- C5: when the validated quantity exceeds the number of currently eligible
contestants, the handler fails with the InvalidArgument outcome
"quantity exceeds eligible contestants" (HTTP 400), leaving the store
unchanged — no `Draw` or `Winner` row is created. -/
theorem draw_quantity_bound (s : Store) (sessionId : String)
    (body : BodyInput) (rand : List Nat) (drawId : String) (pid : String)
    (q : Int) (prize : Prize)
    (h1 : sessionId ≠ "")
    (h2 : sessionExists s sessionId = true)
    (h3 : validateBody body = some (pid, q))
    (h4 : findPrize s sessionId pid = some prize)
    (h5 : q > ((eligibleContestants s sessionId).length : Int)) :
    runDraw s sessionId body rand drawId =
      (.error .quantityExceedsEligible, s,
        [.readSession, .readPrize, .readContestants]) ∧
    httpStatus .quantityExceedsEligible = 400 := by
  refine ⟨?_, rfl⟩
  unfold runDraw runDrawCore
  simp [h1, h2, h3, h4, h5]

/-- Witness for C5: asking 5 winners from a pool of 3 fails with
status-400 InvalidArgument and no rows created. -/
theorem draw_quantity_bound_witness :
    runDraw demoStore "s1" (.parsed ⟨"p1", .intVal 5⟩) [] "d1" =
      (.error .quantityExceedsEligible, demoStore,
        [.readSession, .readPrize, .readContestants]) ∧
    httpStatus .quantityExceedsEligible = 400 :=
  draw_quantity_bound demoStore "s1" (.parsed ⟨"p1", .intVal 5⟩) [] "d1"
    "p1" 5 ⟨"p1", "s1", "Mug", 1⟩ (by decide) (by decide) (by decide)
    (by decide) (by decide)

/-- C10: the session-existence check runs before the body is read or
validated: whenever the session id is present in the route but names no
existing session, the handler returns 404 NotFound — for every body,
including malformed JSON or an invalid quantity — so NotFound(session)
takes precedence over InvalidArgument. -/
theorem session_check_precedes_body (s : Store) (sessionId : String)
    (body : BodyInput) (rand : List Nat) (drawId : String)
    (h1 : sessionId ≠ "") (h2 : sessionExists s sessionId = false) :
    runDraw s sessionId body rand drawId =
      (.error .sessionNotFound, s, [.readSession]) ∧
    httpStatus .sessionNotFound = 404 := by
  refine ⟨?_, rfl⟩
  unfold runDraw runDrawCore
  simp [h1, h2]

/-- Witness for C10: an unknown session with a malformed body still yields
404 NotFound, not 400. -/
theorem session_check_precedes_body_witness :
    runDraw demoStore "ghost" .malformed [] "d1" =
      (.error .sessionNotFound, demoStore, [.readSession]) ∧
    httpStatus .sessionNotFound = 404 :=
  session_check_precedes_body demoStore "ghost" .malformed [] "d1"
    (by decide) (by decide)

/-- C8 (amended): a request whose quantity is 0 (or any value whose zod
coercion fails or is below 1) is rejected with InvalidArgument (HTTP 400)
with the store unchanged and before any store write — but after the
session-existence read, which is the only store access that precedes the
rejection. -/
theorem invalid_quantity_rejected_after_session_read (s : Store)
    (sessionId : String) (b : DrawBody) (rand : List Nat) (drawId : String)
    (h1 : sessionId ≠ "") (h2 : sessionExists s sessionId = true)
    (h3 : ∀ v, coerceQuantity b.quantity = some v → v < 1) :
    runDraw s sessionId (.parsed b) rand drawId =
      (.error .invalidBody, s, [.readSession]) ∧
    httpStatus .invalidBody = 400 := by
  have hv : validateBody (.parsed b) = none := by
    simp only [validateBody]
    cases hcq : coerceQuantity b.quantity with
    | none => simp [hcq]
    | some v =>
      have hlt : ¬ (1 ≤ v) := by have := h3 v hcq; omega
      simp [hcq, hlt]
  refine ⟨?_, rfl⟩
  unfold runDraw runDrawCore
  simp [h1, h2, hv]

/-- Witness for C8's amended statement: quantity 0 on an existing session is
rejected with 400 after only the session read. -/
theorem invalid_quantity_rejected_after_session_read_witness :
    runDraw demoStore "s1" (.parsed ⟨"p1", .intVal 0⟩) [] "d1" =
      (.error .invalidBody, demoStore, [.readSession]) ∧
    httpStatus .invalidBody = 400 :=
  invalid_quantity_rejected_after_session_read demoStore "s1"
    ⟨"p1", .intVal 0⟩ [] "d1" (by decide) (by decide) (by decide)

/-- Counterexample for C8 as stated: a quantity-0 request against an
existing session is rejected with InvalidArgument, but a store access (the
session-existence read) precedes the rejection, so "no reads against the
backing store precede the rejection" is false. -/
theorem invalid_quantity_store_access_cex :
    resultError (runDraw demoStore "s1" (.parsed ⟨"p1", .intVal 0⟩) [] "d1").1 =
      some .invalidBody ∧
    (runDraw demoStore "s1" (.parsed ⟨"p1", .intVal 0⟩) [] "d1").2.2 =
      [Access.readSession] ∧
    (runDraw demoStore "s1" (.parsed ⟨"p1", .intVal 0⟩) [] "d1").2.2 ≠
      ([] : List Access) := by
  refine ⟨rfl, rfl, by decide⟩

/-- The contestant references of the winner batch are exactly the ids of the
selected contestants, in order. -/
theorem mkWinners_map_contestantId (did pn : String) (sel : List Contestant) :
    (mkWinners did pn sel).map (fun w => w.contestantId) =
      sel.map (fun c => c.id) := by
  simp only [mkWinners, List.map_map]
  rw [show ((fun w : Winner => w.contestantId) ∘ fun p : Nat × Contestant =>
      ({ id := did ++ "#" ++ toString p.1, drawId := did,
         contestantId := p.2.id, prizeName := pn } : Winner)) =
      (fun c : Contestant => c.id) ∘ Prod.snd from rfl]
  rw [← List.map_map, List.enum_map_snd]

/-- A successful transactional write keeps the contestant references of the
winner table pairwise distinct: the batch is distinct and disjoint from the
existing rows by the unique-index check. -/
theorem commit_some_nodup (s : Store) (d : Draw) (ws : List Winner)
    (s2 : Store) (hc : commitDrawWinners s d ws = some s2)
    (h : (s.winners.map (fun w => w.contestantId)).Nodup) :
    (s2.winners.map (fun w => w.contestantId)).Nodup := by
  unfold commitDrawWinners at hc
  split at hc
  · rename_i hcond
    obtain ⟨hnd, hfresh⟩ := hcond
    cases hc
    simp only [List.map_append]
    refine h.append hnd ?_
    intro a ha hb
    simp only [List.mem_map] at ha hb
    obtain ⟨w1, hw1, rfl⟩ := ha
    obtain ⟨w2, hw2, heq⟩ := hb
    have hfw := hfresh w2 hw2
    simp only [hasWinner, List.any_eq_false] at hfw
    exact hfw w1 hw1 (by simp [heq])
  · cases hc

/-- After any draws `POST` call, the store is either untouched or the result
of one successful transactional write. -/
theorem runDrawCore_store_eq_or_commit (readS s : Store) (sessionId : String)
    (body : BodyInput) (rand : List Nat) (drawId : String) :
    (runDrawCore readS s sessionId body rand drawId).2.1 = s ∨
    ∃ d ws, commitDrawWinners s d ws =
      some ((runDrawCore readS s sessionId body rand drawId).2.1) := by
  unfold runDrawCore
  dsimp only
  repeat' split
  all_goals try exact Or.inl rfl
  rename_i s2 heq
  exact Or.inr ⟨_, _, heq⟩

/-- In a duplicate-free list, any value is hit at most once. -/
theorem nodup_countP_le_one {α : Type} [BEq α] [LawfulBEq α] (l : List α)
    (hl : l.Nodup) (cid : α) :
    l.countP (fun x => x == cid) ≤ 1 := by
  induction l with
  | nil => simp [List.countP_nil]
  | cons a l ih =>
    rw [List.countP_cons]
    rcases List.nodup_cons.mp hl with ⟨hna, hnl⟩
    by_cases hac : a = cid
    · subst hac
      have hz : l.countP (fun x => x == a) = 0 := by
        rw [List.countP_eq_zero]
        intro b hb
        simp only [beq_iff_eq]
        intro hba
        exact hna (hba ▸ hb)
      simp [hz]
    · simp only [beq_iff_eq, hac]
      simpa using ih hnl

/-- C1: for every initial store whose winner table satisfies the uniqueness
index, and every sequence of draws `POST` calls — each call reading an
arbitrary (possibly stale) snapshot, so every interleaving of successful and
failed draws is covered — every contestant ends with at most one `Winner`
row referencing it. -/
theorem winner_per_contestant_invariant (s : Store) (cs : List DrawCall)
    (cid : String)
    (h : (s.winners.map (fun w => w.contestantId)).Nodup) :
    ((applyCalls s cs).winners.filter
      (fun w => w.contestantId == cid)).length ≤ 1 := by
  have hn : ((applyCalls s cs).winners.map (fun w => w.contestantId)).Nodup := by
    induction cs generalizing s with
    | nil => exact h
    | cons c cs ih =>
      apply ih
      rcases runDrawCore_store_eq_or_commit c.readStore s c.sessionId c.body
          c.rand c.drawId with hcase | ⟨d, ws, hc⟩
      · simpa [applyCalls, applyCall, hcase]
      · exact commit_some_nodup s d ws _ hc h
  rw [← List.countP_eq_length_filter]
  rw [show (applyCalls s cs).winners.countP (fun w => w.contestantId == cid) =
      ((applyCalls s cs).winners.map (fun w => w.contestantId)).countP
        (fun x => x == cid) from
      (List.countP_map (fun x : String => x == cid)
        (fun w : Winner => w.contestantId) (applyCalls s cs).winners).symm]
  exact nodup_countP_le_one _ hn cid

/-- Witness for C1: two draws, the second using a stale eligibility snapshot
that overlaps the first's selection; contestant `c1` still ends with at most
one `Winner` row. -/
theorem winner_per_contestant_invariant_witness :
    (demoStore.winners.map (fun w => w.contestantId)).Nodup ∧
    ((applyCalls demoStore
        [⟨demoStore, "s1", .parsed ⟨"p1", .intVal 2⟩, [0, 0], "dA"⟩,
         ⟨demoStore, "s1", .parsed ⟨"p1", .intVal 2⟩, [2, 0], "dB"⟩]).winners.filter
      (fun w => w.contestantId == "c1")).length ≤ 1 :=
  ⟨by decide, winner_per_contestant_invariant demoStore
    [⟨demoStore, "s1", .parsed ⟨"p1", .intVal 2⟩, [0, 0], "dA"⟩,
     ⟨demoStore, "s1", .parsed ⟨"p1", .intVal 2⟩, [2, 0], "dB"⟩] "c1"
    (by decide)⟩

/-- C3: when the transactional write would violate the winner-per-contestant
uniqueness index — some selected contestant already has a `Winner` row in
the commit-time store — the whole call fails with the Conflict outcome
(HTTP 409), the store is unchanged (zero winners persisted), and the
returned value is the final outcome: the handler performs no retry. -/
theorem draw_conflict_atomic (readS s : Store) (sessionId : String)
    (body : BodyInput) (rand : List Nat) (drawId : String) (pid : String)
    (q : Int) (prize : Prize)
    (h1 : sessionId ≠ "")
    (h2 : sessionExists readS sessionId = true)
    (h3 : validateBody body = some (pid, q))
    (h4 : findPrize readS sessionId pid = some prize)
    (h5 : ¬ q > ((eligibleContestants readS sessionId).length : Int))
    (h6 : ∃ c ∈ (shuffle (eligibleContestants readS sessionId) rand).take q.toNat,
      hasWinner s c.id = true) :
    runDrawCore readS s sessionId body rand drawId =
      (.error .conflict, s,
        [.readSession, .readPrize, .readContestants, .writeDrawWinners]) ∧
    httpStatus .conflict = 409 := by
  refine ⟨?_, rfl⟩
  have hcommit : commitDrawWinners s ⟨drawId, sessionId, prize.id⟩
      (mkWinners drawId prize.name
        ((shuffle (eligibleContestants readS sessionId) rand).take q.toNat)) =
      none := by
    unfold commitDrawWinners
    rw [if_neg]
    rintro ⟨-, hfresh⟩
    obtain ⟨c, hcmem, hw⟩ := h6
    have hidmem : c.id ∈ (mkWinners drawId prize.name
        ((shuffle (eligibleContestants readS sessionId) rand).take q.toNat)).map
        (fun w => w.contestantId) := by
      rw [mkWinners_map_contestantId]
      exact List.mem_map_of_mem _ hcmem
    obtain ⟨w, hwmem, hwid⟩ := List.mem_map.mp hidmem
    have := hfresh w hwmem
    rw [hwid, hw] at this
    cases this
  unfold runDrawCore
  simp [h1, h2, h3, h4, h5, hcommit]

/-- Witness for C3: a call whose stale read still sees `c1` as eligible
while the commit store already records `c1` as a winner fails with 409 and
changes nothing. -/
theorem draw_conflict_atomic_witness :
    runDrawCore demoStore wonStore "s1" (.parsed ⟨"p1", .intVal 2⟩) [2, 0]
        "dB" =
      (.error .conflict, wonStore,
        [.readSession, .readPrize, .readContestants, .writeDrawWinners]) ∧
    httpStatus .conflict = 409 :=
  draw_conflict_atomic demoStore wonStore "s1" (.parsed ⟨"p1", .intVal 2⟩)
    [2, 0] "dB" "p1" 2 ⟨"p1", "s1", "Mug", 1⟩ (by decide) (by decide)
    (by decide) (by decide) (by decide) (by decide)

/-- C7: the engine caps the quantity only by the eligible count, never by the
prize's remaining undrawn units: in the demo store the prize has quantity 1
and no winners yet (remaining 1), yet a draw of 2 ≤ 3 eligible succeeds and
records 2 winners for that prize — more than its declared quantity. -/
theorem draw_no_prize_remaining_cap :
    (2 : Nat) ≤ (eligibleContestants demoStore "s1").length ∧
    findPrize demoStore "s1" "p1" = some ⟨"p1", "s1", "Mug", 1⟩ ∧
    (⟨"p1", "s1", "Mug", 1⟩ : Prize).quantity -
        totalDrawnFor demoStore "s1" "p1" < 2 ∧
    (resultOk (runDraw demoStore "s1" demoBody [0, 0] "d1").1).isSome = true ∧
    totalDrawnFor (runDraw demoStore "s1" demoBody [0, 0] "d1").2.1 "s1" "p1" =
      2 := by
  decide

/-- Replacing the `k`-th element and moving the old one to the front is a
permutation of pushing the new element on front. -/
theorem perm_cons_set (xs : List α) (k : Nat) (x b : α)
    (hk : xs.get? k = some b) : (b :: xs.set k x).Perm (x :: xs) := by
  induction xs generalizing k with
  | nil => simp at hk
  | cons y ys ih =>
    cases k with
    | zero =>
      simp only [List.get?] at hk
      injection hk with h
      subst h
      simp only [List.set]
      exact List.Perm.swap _ _ _
    | succ k =>
      simp only [List.get?] at hk
      simp only [List.set]
      exact (List.Perm.swap _ _ _).trans
        (((ih k hk).cons y).trans (List.Perm.swap _ _ _))

/-- Exchanging the elements at two positions permutes the list. -/
theorem set_set_swap_perm (l : List α) (i j : Nat) (a b : α)
    (hi : l.get? i = some a) (hj : l.get? j = some b) :
    ((l.set i b).set j a).Perm l := by
  induction l generalizing i j with
  | nil => simp at hi
  | cons x xs ih =>
    cases i with
    | zero =>
      simp only [List.get?] at hi
      injection hi with h
      subst h
      cases j with
      | zero =>
        simp only [List.get?] at hj
        injection hj with h2
        subst h2
        simp [List.set]
      | succ k =>
        simp only [List.get?] at hj
        simp only [List.set]
        exact perm_cons_set xs k x b hj
    | succ m =>
      cases j with
      | zero =>
        simp only [List.get?] at hi hj
        injection hj with h2
        subst h2
        simp only [List.set]
        exact perm_cons_set xs m x a hi
      | succ k =>
        simp only [List.get?] at hi hj
        simp only [List.set]
        exact (ih m k hi hj).cons x

/-- The JS swap is a permutation, whatever the indices. -/
theorem listSwap_perm (l : List α) (i j : Nat) : (listSwap l i j).Perm l := by
  unfold listSwap
  split
  · rename_i h
    exact set_set_swap_perm l i j _ _ (List.get?_eq_get h.1) (List.get?_eq_get h.2)
  · exact .refl _

/-- Every iteration count and random-choice list yields a permutation. -/
theorem shuffleLoop_perm (arr : List α) (rand : List Nat) (fuel : Nat) :
    (shuffleLoop arr rand fuel).Perm arr := by
  induction fuel generalizing arr rand with
  | zero => cases rand <;> exact .refl _
  | succ n ih =>
    cases rand with
    | nil => exact .refl _
    | cons j rest =>
      exact (ih (listSwap arr (n + 1) j) rest).trans (listSwap_perm arr (n + 1) j)

/-- The route's `shuffle` always returns a permutation of its input, for
every random-choice list. -/
theorem shuffle_perm (items : List α) (rand : List Nat) :
    (shuffle items rand).Perm items :=
  shuffleLoop_perm items rand (items.length - 1)

/-- A successfully validated body always carries a positive quantity. -/
theorem validateBody_pos (body : BodyInput) (pid : String) (q : Int)
    (h : validateBody body = some (pid, q)) : 1 ≤ q := by
  cases body with
  | malformed => simp [validateBody] at h
  | parsed b =>
    cases hcq : coerceQuantity b.quantity with
    | none => simp [validateBody, hcq] at h
    | some v =>
      simp only [validateBody, hcq] at h
      split at h
      · split at h
        · injection h with h2
          injection h2 with hpid hq
          subst hq
          omega
        · cases h
      · cases h

/-- The eligible-contestant ids inherit distinctness from the contestant
table's primary keys. -/
theorem eligible_ids_nodup (s : Store) (sid : String)
    (h : (s.contestants.map (fun c => c.id)).Nodup) :
    ((eligibleContestants s sid).map (fun c => c.id)).Nodup :=
  ((List.filter_sublist s.contestants).map _).nodup h

/-- Counting the contestants whose id lies in a duplicate-free id list `S`
fully contained in the (duplicate-free) id projection gives `S.length`. -/
theorem countP_mem_ids (E : List Contestant) (S : List String)
    (hE : (E.map (fun c => c.id)).Nodup) (hS : S.Nodup)
    (hsub : ∀ x ∈ S, x ∈ E.map (fun c => c.id)) :
    E.countP (fun c => S.any (fun x => x == c.id)) = S.length := by
  rw [List.countP_eq_length_filter]
  have hperm : ((E.filter (fun c => S.any (fun x => x == c.id))).map
      (fun c => c.id)).Perm S := by
    rw [List.perm_ext_iff_of_nodup
      (((List.filter_sublist E).map _).nodup hE) hS]
    intro a
    constructor
    · intro ha
      obtain ⟨c, hc, rfl⟩ := List.mem_map.mp ha
      have hp := (List.mem_filter.mp hc).2
      simp only [List.any_eq_true, beq_iff_eq] at hp
      obtain ⟨x, hx, rfl⟩ := hp
      exact hx
    · intro ha
      obtain ⟨c, hc, hcid⟩ := List.mem_map.mp (hsub a ha)
      refine List.mem_map.mpr ⟨c, List.mem_filter.mpr ⟨hc, ?_⟩, hcid⟩
      simp only [List.any_eq_true, beq_iff_eq]
      exact ⟨a, ha, hcid.symm⟩
  calc (E.filter (fun c => S.any (fun x => x == c.id))).length
      = ((E.filter (fun c => S.any (fun x => x == c.id))).map
          (fun c => c.id)).length := (List.length_map _ _).symm
    _ = S.length := hperm.length_eq

/-- In a duplicate-free list every member is hit exactly once. -/
theorem nodup_countP_eq_one {α : Type} [BEq α] [LawfulBEq α] (l : List α)
    (hl : l.Nodup) (a : α)
    (ha : a ∈ l) : l.countP (fun x => x == a) = 1 := by
  have hle := nodup_countP_le_one l hl a
  have hpos : 0 < l.countP (fun x => x == a) :=
    List.countP_pos_iff.mpr ⟨a, ha, by simp⟩
  omega

/-- Testing a projected value directly or after mapping agree. -/
theorem any_map_beq (ws : List Winner) (cid : String) :
    ws.any (fun w => w.contestantId == cid) =
    (ws.map (fun w => w.contestantId)).any (fun x => x == cid) := by
  induction ws with
  | nil => rfl
  | cons w ws ih => simp [List.any_cons, ih]

/-- Splitting a list by a predicate preserves total length. -/
theorem length_filter_add (l : List α) (p : α → Bool) :
    (l.filter p).length + (l.filter (fun a => !p a)).length = l.length := by
  induction l with
  | nil => rfl
  | cons a l ih =>
    cases hpa : p a <;> simp only [List.filter_cons, hpa] <;> simp <;> omega

/-- C4: a successful draw of quantity `k` from an eligible pool of size
`N ≥ k ≥ 1` returns exactly `k` pairwise-distinct winners, each taken from
the eligible pool; reports `eligibleBefore = N`; gives each winner exactly
one `Winner` row in the resulting store; and leaves the session with
exactly `N - k` eligible contestants. -/
theorem draw_success_spec (s : Store) (sessionId : String) (body : BodyInput)
    (rand : List Nat) (drawId : String) (pid : String) (q : Int)
    (prize : Prize)
    (hids : (s.contestants.map (fun c => c.id)).Nodup)
    (h1 : sessionId ≠ "")
    (h2 : sessionExists s sessionId = true)
    (h3 : validateBody body = some (pid, q))
    (h4 : findPrize s sessionId pid = some prize)
    (h5 : q.toNat ≤ (eligibleContestants s sessionId).length) :
    ∃ resp,
      (runDraw s sessionId body rand drawId).1 = .ok resp ∧
      resp.winners.length = q.toNat ∧
      (resp.winners.map (fun w => w.contestantId)).Nodup ∧
      (∀ w ∈ resp.winners,
        w.contestantId ∈ (eligibleContestants s sessionId).map
          (fun c => c.id)) ∧
      resp.eligibleBefore = (eligibleContestants s sessionId).length ∧
      (∀ w ∈ resp.winners,
        (((runDraw s sessionId body rand drawId).2.1).winners.filter
          (fun x => x.contestantId == w.contestantId)).length = 1) ∧
      (eligibleContestants (runDraw s sessionId body rand drawId).2.1
          sessionId).length =
        (eligibleContestants s sessionId).length - q.toNat := by
  have hq1 : 1 ≤ q := validateBody_pos body pid q h3
  have hperm : (shuffle (eligibleContestants s sessionId) rand).Perm
      (eligibleContestants s sessionId) := shuffle_perm _ rand
  have hEnodup := eligible_ids_nodup s sessionId hids
  have hshnodup : ((shuffle (eligibleContestants s sessionId) rand).map
      (fun c => c.id)).Nodup := ((hperm.map (fun c => c.id)).symm).nodup hEnodup
  have hselsub : ((shuffle (eligibleContestants s sessionId) rand).take
      q.toNat).Sublist (shuffle (eligibleContestants s sessionId) rand) :=
    List.take_sublist _ _
  have hselnodup : (((shuffle (eligibleContestants s sessionId) rand).take
      q.toNat).map (fun c => c.id)).Nodup := (hselsub.map _).nodup hshnodup
  have hselmemE : ∀ c ∈ (shuffle (eligibleContestants s sessionId) rand).take
      q.toNat, c ∈ eligibleContestants s sessionId :=
    fun c hc => hperm.subset (hselsub.subset hc)
  have hfresh : ∀ c ∈ (shuffle (eligibleContestants s sessionId) rand).take
      q.toNat, hasWinner s c.id = false := by
    intro c hc
    have hpred := (List.mem_filter.mp (hselmemE c hc)).2
    have := ((Bool.and_eq_true _ _).mp hpred).2
    simpa using this
  have hlensel : ((shuffle (eligibleContestants s sessionId) rand).take
      q.toNat).length = q.toNat := by
    rw [List.length_take, hperm.length_eq]
    omega
  have hwsids := mkWinners_map_contestantId drawId prize.name
    ((shuffle (eligibleContestants s sessionId) rand).take q.toNat)
  have hcommit : commitDrawWinners s ⟨drawId, sessionId, prize.id⟩
      (mkWinners drawId prize.name
        ((shuffle (eligibleContestants s sessionId) rand).take q.toNat)) =
      some { s with
        draws := s.draws ++ [⟨drawId, sessionId, prize.id⟩],
        winners := s.winners ++ mkWinners drawId prize.name
          ((shuffle (eligibleContestants s sessionId) rand).take q.toNat) } := by
    unfold commitDrawWinners
    rw [if_pos]
    refine ⟨by rw [hwsids]; exact hselnodup, ?_⟩
    intro w hw
    have hwid : w.contestantId ∈
        ((shuffle (eligibleContestants s sessionId) rand).take q.toNat).map
          (fun c => c.id) := by
      rw [← hwsids]
      exact List.mem_map_of_mem _ hw
    obtain ⟨c, hcmem, hcid⟩ := List.mem_map.mp hwid
    rw [← hcid]
    exact hfresh c hcmem
  have hngt : ¬ q > ((eligibleContestants s sessionId).length : Int) := by
    omega
  have hrun : runDraw s sessionId body rand drawId =
      (.ok
        { drawId := drawId, sessionId := sessionId, prizeId := prize.id,
          prizeName := prize.name, requestedQuantity := q,
          eligibleBefore := (eligibleContestants s sessionId).length,
          winners := ((shuffle (eligibleContestants s sessionId) rand).take
            q.toNat).map (fun c => ⟨c.id, c.name, prize.name⟩) },
       { s with
         draws := s.draws ++ [⟨drawId, sessionId, prize.id⟩],
         winners := s.winners ++ mkWinners drawId prize.name
           ((shuffle (eligibleContestants s sessionId) rand).take q.toNat) },
       [.readSession, .readPrize, .readContestants, .writeDrawWinners]) := by
    unfold runDraw runDrawCore
    simp only [h1, h2, h3, h4, hngt, hcommit, if_neg, if_false, ite_false]
    simp [h1, h2, hngt, hcommit]
  refine ⟨_, by rw [hrun], ?_, ?_, ?_, rfl, ?_, ?_⟩
  · simp only [List.length_map]
    exact hlensel
  · rw [show (((shuffle (eligibleContestants s sessionId) rand).take
        q.toNat).map (fun c => (⟨c.id, c.name, prize.name⟩ : WinnerView))).map
        (fun w => w.contestantId) =
        ((shuffle (eligibleContestants s sessionId) rand).take q.toNat).map
          (fun c => c.id) from by rw [List.map_map]; rfl]
    exact hselnodup
  · intro w hw
    obtain ⟨c, hcmem, rfl⟩ := List.mem_map.mp hw
    exact List.mem_map_of_mem _ (hselmemE c hcmem)
  · intro w hw
    obtain ⟨c, hcmem, rfl⟩ := List.mem_map.mp hw
    rw [hrun]
    dsimp only
    show ((s.winners ++ mkWinners drawId prize.name _).filter _).length = 1
    rw [List.filter_append, List.length_append]
    have hold : (s.winners.filter
        (fun x => x.contestantId == c.id)).length = 0 := by
      rw [← List.countP_eq_length_filter, List.countP_eq_zero]
      have := hfresh c hcmem
      simp only [hasWinner, List.any_eq_false] at this
      exact this
    have hnew : ((mkWinners drawId prize.name
        ((shuffle (eligibleContestants s sessionId) rand).take q.toNat)).filter
        (fun x => x.contestantId == c.id)).length = 1 := by
      rw [← List.countP_eq_length_filter]
      rw [show (mkWinners drawId prize.name
          ((shuffle (eligibleContestants s sessionId) rand).take
            q.toNat)).countP (fun x => x.contestantId == c.id) =
          ((mkWinners drawId prize.name
            ((shuffle (eligibleContestants s sessionId) rand).take
              q.toNat)).map (fun w => w.contestantId)).countP
            (fun x => x == c.id) from
        (List.countP_map (fun x : String => x == c.id)
          (fun w : Winner => w.contestantId) _).symm]
      rw [hwsids]
      exact nodup_countP_eq_one _ hselnodup c.id (List.mem_map_of_mem _ hcmem)
    omega
  · rw [hrun]
    have hhw : ∀ cid, hasWinner
        { s with
          draws := s.draws ++ [⟨drawId, sessionId, prize.id⟩],
          winners := s.winners ++ mkWinners drawId prize.name
            ((shuffle (eligibleContestants s sessionId) rand).take q.toNat) }
        cid =
        (hasWinner s cid ||
          (((shuffle (eligibleContestants s sessionId) rand).take
            q.toNat).map (fun c => c.id)).any (fun x => x == cid)) := by
      intro cid
      show (s.winners ++ _).any _ = _
      rw [List.any_append]
      congr 1
      rw [← hwsids]
      exact any_map_beq _ cid
    have hfilt : eligibleContestants
        { s with
          draws := s.draws ++ [⟨drawId, sessionId, prize.id⟩],
          winners := s.winners ++ mkWinners drawId prize.name
            ((shuffle (eligibleContestants s sessionId) rand).take q.toNat) }
        sessionId =
        (eligibleContestants s sessionId).filter
          (fun c => !((((shuffle (eligibleContestants s sessionId) rand).take
            q.toNat).map (fun x => x.id)).any (fun x => x == c.id))) := by
      show s.contestants.filter _ = (s.contestants.filter _).filter _
      rw [List.filter_filter]
      apply List.filter_congr
      intro c _
      rw [hhw c.id]
      cases c.sessionId == sessionId <;> cases hasWinner s c.id <;>
        cases (((shuffle (eligibleContestants s sessionId) rand).take
          q.toNat).map (fun x => x.id)).any (fun x => x == c.id) <;> rfl
    rw [hfilt]
    have hsplit := length_filter_add (eligibleContestants s sessionId)
      (fun c => (((shuffle (eligibleContestants s sessionId) rand).take
        q.toNat).map (fun x => x.id)).any (fun x => x == c.id))
    have hk : ((eligibleContestants s sessionId).filter
        (fun c => (((shuffle (eligibleContestants s sessionId) rand).take
          q.toNat).map (fun x => x.id)).any (fun x => x == c.id))).length =
        q.toNat := by
      rw [← List.countP_eq_length_filter]
      rw [countP_mem_ids (eligibleContestants s sessionId)
        (((shuffle (eligibleContestants s sessionId) rand).take q.toNat).map
          (fun x => x.id)) hEnodup hselnodup]
      · rw [List.length_map]
        exact hlensel
      · intro x hx
        obtain ⟨c, hcmem, rfl⟩ := List.mem_map.mp hx
        exact List.mem_map_of_mem _ (hselmemE c hcmem)
    omega

/-- Witness for C4: drawing 2 from the 3-contestant demo pool returns two
distinct eligible winners, reports `eligibleBefore = 3`, records one row per
winner, and leaves 1 eligible contestant. -/
theorem draw_success_spec_witness :
    ∃ resp,
      (runDraw demoStore "s1" demoBody [0, 0] "d1").1 = .ok resp ∧
      resp.winners.length = (2 : Int).toNat ∧
      (resp.winners.map (fun w => w.contestantId)).Nodup ∧
      (∀ w ∈ resp.winners,
        w.contestantId ∈ (eligibleContestants demoStore "s1").map
          (fun c => c.id)) ∧
      resp.eligibleBefore = (eligibleContestants demoStore "s1").length ∧
      (∀ w ∈ resp.winners,
        (((runDraw demoStore "s1" demoBody [0, 0] "d1").2.1).winners.filter
          (fun x => x.contestantId == w.contestantId)).length = 1) ∧
      (eligibleContestants (runDraw demoStore "s1" demoBody [0, 0] "d1").2.1
          "s1").length =
        (eligibleContestants demoStore "s1").length - (2 : Int).toNat :=
  draw_success_spec demoStore "s1" demoBody [0, 0] "d1" "p1" 2
    ⟨"p1", "s1", "Mug", 1⟩ (by decide) (by decide) (by decide) (by decide)
    (by decide) (by decide)

/-- The JS swap never changes the array length. -/
theorem listSwap_length (l : List α) (i j : Nat) :
    (listSwap l i j).length = l.length := by
  unfold listSwap
  split <;> simp

/-- Writing back the element already at a position changes nothing. -/
theorem set_get_self_eq (l : List α) (i : Nat) (h : i < l.length) :
    l.set i (l.get ⟨i, h⟩) = l := by
  induction l generalizing i with
  | nil => simp at h
  | cons a l ih =>
    cases i with
    | zero => rfl
    | succ k =>
      show a :: l.set k (l.get ⟨k, by simpa using h⟩) = a :: l
      rw [ih k (by simpa using h)]

/-- In-range `getD` is plain indexing. -/
theorem getD_eq_getElem' (l : List α) (i : Nat) (d : α) (h : i < l.length) :
    l.getD i d = l[i] := by
  rw [List.getD_eq_getElem?_getD, List.getElem?_eq_getElem h]
  rfl

/-- In-range `getD` as `get`. -/
theorem getD_eq_get (l : List α) (i : Nat) (d : α) (h : i < l.length) :
    l.getD i d = l.get ⟨i, h⟩ := by
  rw [List.getD_eq_getElem?_getD, List.getElem?_eq_getElem h]
  rfl

/-- Swapping the last position of an `(n+2)`-list with position `j ≤ n+1`
moves `l[j]` to the end and `l[n+1]` into position `j` of the prefix. -/
theorem listSwap_last_decomp (l : List α) (n j : Nat) (d : α)
    (hlen : l.length = n + 2) (hj : j ≤ n + 1) :
    listSwap l (n + 1) j =
      ((l.take (n + 1)).set j (l.getD (n + 1) d)) ++ [l.getD j d] := by
  have h1 : n + 1 < l.length := by omega
  have h2 : j < l.length := by omega
  rw [getD_eq_get l (n + 1) d h1, getD_eq_get l j d h2]
  unfold listSwap
  rw [dif_pos ⟨h1, h2⟩]
  have hdrop : l.drop (n + 1) = [l.get ⟨n + 1, h1⟩] := by
    rw [List.drop_eq_getElem_cons h1,
      List.drop_eq_nil_of_le (by omega : l.length ≤ n + 2)]
    rfl
  have htklen : (l.take (n + 1)).length = n + 1 := by
    simp [List.length_take]
    omega
  show (l.set (n + 1) (l.get ⟨j, h2⟩)).set j (l.get ⟨n + 1, h1⟩) =
    (l.take (n + 1)).set j (l.get ⟨n + 1, h1⟩) ++ [l.get ⟨j, h2⟩]
  rcases Nat.lt_or_ge j (n + 1) with hlt | hge
  · generalize hy : l.get ⟨n + 1, h1⟩ = y
    generalize hx : l.get ⟨j, h2⟩ = x
    rw [hy] at hdrop
    conv_lhs => rw [← List.take_append_drop (n + 1) l, hdrop]
    rw [List.set_append_right _ _ (by omega : (l.take (n + 1)).length ≤ n + 1)]
    rw [htklen, Nat.sub_self]
    rw [List.set_append_left _ _ (by omega : j < (l.take (n + 1)).length)]
    rfl
  · have hjeq : j = n + 1 := by omega
    subst hjeq
    rw [List.set_set, set_get_self_eq l (n + 1) h1]
    rw [List.set_eq_of_length_le (by omega : (l.take (n + 1)).length ≤ n + 1)]
    conv_lhs => rw [← List.take_append_drop (n + 1) l, hdrop]

/-- Swapping two in-prefix positions ignores an appended last element. -/
theorem listSwap_append_left (front : List α) (x : α) (i j : Nat)
    (hi : i < front.length) (hj : j < front.length) :
    listSwap (front ++ [x]) i j = listSwap front i j ++ [x] := by
  unfold listSwap
  rw [dif_pos ⟨by simp; omega, by simp; omega⟩, dif_pos ⟨hi, hj⟩]
  simp only [List.get_eq_getElem]
  rw [List.getElem_append_left hj, List.getElem_append_left hi]
  rw [List.set_append_left _ _ (by omega : i < front.length)]
  rw [List.set_append_left _ _ (by simpa using hj)]

/-- A shuffle-loop run whose indices stay inside the prefix ignores an
appended last element. -/
theorem shuffleLoop_append_last (fuel : Nat) (front : List α) (x : α)
    (rest : List Nat) (hfuel : fuel < front.length)
    (hv : validRand (fuel + 1) rest = true) :
    shuffleLoop (front ++ [x]) rest fuel = shuffleLoop front rest fuel ++ [x] := by
  induction fuel generalizing front rest with
  | zero => cases rest <;> rfl
  | succ n ih =>
    cases rest with
    | nil => simp [validRand] at hv
    | cons j rest =>
      have hjv : j ≤ n + 1 ∧ validRand (n + 1) rest = true := by
        have := hv
        simp only [validRand, Bool.and_eq_true, decide_eq_true_eq] at this
        exact this
      show shuffleLoop (listSwap (front ++ [x]) (n + 1) j) rest n =
        shuffleLoop (listSwap front (n + 1) j) rest n ++ [x]
      rw [listSwap_append_left front x (n + 1) j hfuel (by omega)]
      exact ih (listSwap front (n + 1) j) rest
        (by rw [listSwap_length]; omega) hjv.2

/-- One unrolling of the Fisher-Yates recursion: for an `(n+2)`-list, the
first random choice `j` sends `l[j]` to the last output position and the
rest of the output is the shuffle of the remaining `n+1` elements. -/
theorem shuffle_cons (l : List α) (n j : Nat) (rest : List Nat) (d : α)
    (hlen : l.length = n + 2) (hj : j ≤ n + 1)
    (hv : validRand (n + 1) rest = true) :
    shuffle l (j :: rest) =
      shuffle ((l.take (n + 1)).set j (l.getD (n + 1) d)) rest ++
        [l.getD j d] := by
  have hfront : ((l.take (n + 1)).set j (l.getD (n + 1) d)).length = n + 1 := by
    simp [List.length_take]
    omega
  show shuffleLoop l (j :: rest) (l.length - 1) = _
  rw [hlen]
  show shuffleLoop (listSwap l (n + 1) j) rest n = _
  rw [listSwap_last_decomp l n j d hlen hj]
  rw [shuffleLoop_append_last n _ _ rest (by rw [hfront]; omega) hv]
  rw [shuffle, hfront]
  rfl

/-- Membership in the enumeration of random-choice sequences is exactly
validity. -/
theorem mem_allValidRands : ∀ (n : Nat) (r : List Nat),
    r ∈ allValidRands n ↔ validRand n r = true := by
  intro n
  induction n using Nat.strong_induction_on with
  | _ n ih =>
    rcases n with _ | n
    · intro r
      cases r <;> simp [allValidRands, validRand]
    · rcases n with _ | m
      · intro r
        cases r <;> simp [allValidRands, validRand]
      · intro r
        rw [show allValidRands (m + 2) = (List.range (m + 2)).flatMap
          (fun j => (allValidRands (m + 1)).map (fun r => j :: r)) from rfl]
        simp only [List.mem_flatMap, List.mem_map, List.mem_range]
        cases r with
        | nil =>
          simp only [validRand]
          constructor
          · rintro ⟨a, _, xx, _, heq⟩
            cases heq
          · intro h
            cases h
        | cons j rest =>
          simp only [validRand, Bool.and_eq_true, decide_eq_true_eq]
          constructor
          · rintro ⟨a, ha, xx, hx, heq⟩
            injection heq with h1 h2
            refine ⟨by omega, ?_⟩
            rw [← h2]
            exact (ih (m + 1) (by omega) xx).mp hx
          · rintro ⟨hjle, hvr⟩
            exact ⟨j, by omega, rest,
              (ih (m + 1) (by omega) rest).mpr hvr, rfl⟩

/-- Occurrence counting distributes over `flatMap` as a sum. -/
theorem count_flatMap' {α β : Type} [BEq β] (L : List α) (f : α → List β)
    (b : β) :
    (L.flatMap f).count b = (L.map (fun a => (f a).count b)).sum := by
  induction L with
  | nil => rfl
  | cons a L ih => simp [List.flatMap_cons, List.count_append, ih]

/-- The length of a `flatMap` is the sum of the inner lengths. -/
theorem length_flatMap' {α β : Type} (L : List α) (f : α → List β) :
    (L.flatMap f).length = (L.map (fun a => (f a).length)).sum := by
  induction L with
  | nil => rfl
  | cons a L ih => simp [List.flatMap_cons, ih]

/-- There are exactly `n!` valid random-choice sequences for length `n`. -/
theorem length_allValidRands : ∀ n, (allValidRands n).length = n.factorial := by
  intro n
  induction n using Nat.strong_induction_on with
  | _ n ih =>
    rcases n with _ | n
    · rfl
    · rcases n with _ | m
      · rfl
      · rw [show allValidRands (m + 2) = (List.range (m + 2)).flatMap
          (fun j => (allValidRands (m + 1)).map (fun r => j :: r)) from rfl]
        rw [length_flatMap']
        rw [List.map_congr_left (g := fun _ => (m + 1).factorial)
          (by intro a _
              simp [List.length_map, ih (m + 1) (by omega)])]
        simp [List.map_const', List.sum_replicate, smul_eq_mul,
          List.length_range, Nat.factorial_succ]

/-- Counting a concat-shaped value among concat-shaped values reduces to
counting the prefixes when the last elements agree, and is zero otherwise. -/
theorem count_map_concat (A : List (List Nat)) (g : List Nat → List Nat)
    (y : Nat) (q : List Nat) (x : Nat) :
    (A.map (fun r => g r ++ [y])).count (q ++ [x]) =
      if x = y then (A.map g).count q else 0 := by
  induction A with
  | nil => simp
  | cons r A ih =>
    simp only [List.map_cons, List.count_cons, ih]
    by_cases hxy : x = y
    · subst hxy
      simp only [if_pos rfl]
      by_cases hq : q = g r
      · subst hq
        simp
      · have hne : ¬(q ++ [x] = g r ++ [x]) := by simpa using hq
        simp [hq, hne]
    · have hne : ¬(q ++ [x] = g r ++ [y]) := by
        intro hcontra
        have h2 := (List.append_inj' hcontra (by simp)).2
        injection h2 with h3
        exact hxy h3
      have hne2 : ¬(g r ++ [y] = q ++ [x]) := fun h => hne h.symm
      simp [hxy, hne, hne2]

/-- A sum of indicator values is a `countP`. -/
theorem sum_map_ite_count (L : List Nat) (P : Nat → Prop) [DecidablePred P] :
    (L.map (fun j => if P j then 1 else 0)).sum =
      L.countP (fun j => decide (P j)) := by
  induction L with
  | nil => rfl
  | cons a L ih =>
    simp only [List.map_cons, List.sum_cons, List.countP_cons, ih]
    by_cases h : P a <;> simp [h]
    all_goals omega

/-- Core of the Fisher-Yates uniformity argument: over the uniformly weighted
valid random-choice sequences, every permutation of a duplicate-free input is
produced exactly once, and nothing else is produced. -/
theorem fy_count_core : ∀ n, ∀ l : List Nat, l.length = n → l.Nodup →
    ∀ p : List Nat,
      ((allValidRands n).map (fun r => shuffle l r)).count p =
        if p.Perm l then 1 else 0 := by
  intro n
  induction n using Nat.strong_induction_on with
  | _ n ih =>
    rcases n with _ | n
    · intro l hlen _ p
      have hl0 : l = [] := List.eq_nil_of_length_eq_zero hlen
      subst hl0
      show (([[]] : List (List Nat)).map (fun r => shuffle [] r)).count p = _
      by_cases hp : p = [] <;>
        simp [shuffle, shuffleLoop, List.count_singleton, hp, List.perm_nil]
    · rcases n with _ | m
      · intro l hlen _ p
        obtain ⟨a, ha⟩ : ∃ a, l = [a] := by
          cases l with
          | nil => simp at hlen
          | cons a t =>
            cases t with
            | nil => exact ⟨a, rfl⟩
            | cons b u => simp at hlen
        subst ha
        show (([[]] : List (List Nat)).map (fun r => shuffle [a] r)).count p = _
        by_cases hp : p = [a] <;>
          simp [shuffle, shuffleLoop, List.count_singleton, hp,
            List.perm_singleton]
      · intro l hlen hnd p
        have hA : allValidRands (m + 2) = (List.range (m + 2)).flatMap
            (fun j => (allValidRands (m + 1)).map (fun r => j :: r)) := rfl
        rw [hA, List.map_flatMap, count_flatMap']
        have hmapj : ∀ j < m + 2,
            (((allValidRands (m + 1)).map (fun r => j :: r)).map
              (fun r => shuffle l r)) =
            ((allValidRands (m + 1)).map (fun r =>
              shuffle ((l.take (m + 1)).set j (l.getD (m + 1) 0)) r ++
                [l.getD j 0])) := by
          intro j hj
          rw [List.map_map]
          apply List.map_congr_left
          intro r hr
          exact shuffle_cons l m j r 0 hlen (by omega)
            ((mem_allValidRands (m + 1) r).mp hr)
        have hdecomp : ∀ j < m + 2,
            (((l.take (m + 1)).set j (l.getD (m + 1) 0)) ++
              [l.getD j 0]).Perm l := by
          intro j hj
          rw [← listSwap_last_decomp l m j 0 hlen (by omega)]
          exact listSwap_perm l (m + 1) j
        have hfrontlen : ∀ j,
            ((l.take (m + 1)).set j (l.getD (m + 1) 0)).length = m + 1 := by
          intro j
          simp [List.length_take]
          omega
        have hfrontnodup : ∀ j < m + 2,
            ((l.take (m + 1)).set j (l.getD (m + 1) 0)).Nodup := by
          intro j hj
          exact ((hdecomp j hj).symm.nodup hnd).of_append_left
        by_cases hpl : p.Perm l
        · rw [if_pos hpl]
          have hplen : p.length = m + 2 := by rw [hpl.length_eq, hlen]
          obtain ⟨q, x, hqx⟩ : ∃ q x, p = q ++ [x] := by
            rcases List.eq_nil_or_concat p with h | ⟨q, x, h⟩
            · rw [h] at hplen; simp at hplen
            · exact ⟨q, x, by simpa using h⟩
          subst hqx
          have hxl : x ∈ l := hpl.subset (by simp)
          obtain ⟨j0, hj0lt, hj0x⟩ := List.getElem_of_mem hxl
          have hj0lt' : j0 < m + 2 := by omega
          rw [List.map_congr_left (g := fun j =>
            if x = l.getD j 0 ∧
              q.Perm ((l.take (m + 1)).set j (l.getD (m + 1) 0)) then 1
            else 0)]
          · rw [sum_map_ite_count]
            rw [List.countP_congr (q := fun j => j == j0)]
            · exact nodup_countP_eq_one _ (List.nodup_range _) j0
                (List.mem_range.mpr hj0lt')
            · intro j hj
              have hjlt : j < m + 2 := List.mem_range.mp hj
              simp only [decide_eq_true_eq, beq_iff_eq]
              constructor
              · rintro ⟨hxj, -⟩
                have hgd : l.getD j 0 = l.get ⟨j, by omega⟩ :=
                  getD_eq_get l j 0 (by omega)
                have hxx : l.get ⟨j, by omega⟩ = l.get ⟨j0, by omega⟩ := by
                  rw [show l.get ⟨j0, by omega⟩ = x from hj0x, ← hgd, ← hxj]
                exact (hnd.getElem_inj_iff).mp hxx
              · rintro rfl
                refine ⟨by rw [getD_eq_getElem' l j 0 (by omega), hj0x], ?_⟩
                have hper : (q ++ [x]).Perm
                    (((l.take (m + 1)).set j (l.getD (m + 1) 0)) ++
                      [l.getD j 0]) := hpl.trans (hdecomp j hjlt).symm
                rw [show l.getD j 0 = x from by
                  rw [getD_eq_getElem' l j 0 (by omega), hj0x]] at hper
                exact (List.perm_append_right_iff [x]).mp hper
          · intro j hj
            have hjlt : j < m + 2 := List.mem_range.mp hj
            rw [hmapj j hjlt, count_map_concat]
            by_cases hxj : x = l.getD j 0
            · rw [if_pos hxj]
              rw [ih (m + 1) (by omega) _ (hfrontlen j) (hfrontnodup j hjlt) q]
              by_cases hq : q.Perm ((l.take (m + 1)).set j (l.getD (m + 1) 0))
              · rw [if_pos hq, if_pos ⟨hxj, hq⟩]
              · rw [if_neg hq, if_neg (fun hcon => hq hcon.2)]
            · rw [if_neg hxj, if_neg (fun hcon => hxj hcon.1)]
        · rw [if_neg hpl]
          rw [List.map_congr_left (g := fun _ => 0)]
          · simp [List.map_const', List.sum_replicate]
          · intro j hj
            have hjlt : j < m + 2 := List.mem_range.mp hj
            rw [hmapj j hjlt]
            rw [List.count_eq_zero]
            intro hmem
            obtain ⟨r, hr, heq⟩ := List.mem_map.mp hmem
            apply hpl
            rw [← heq]
            exact ((shuffle_perm _ r).append_right [l.getD j 0]).trans
              (hdecomp j hjlt)

/-- C6: the route's `shuffle` implements an unbiased Fisher-Yates shuffle.
For a duplicate-free input `l` of length `n`: the output is a permutation of
the input for every random-choice sequence; there are exactly `n!` valid
sequences of the loop's random draws (`validRand`/`allValidRands`), each
equally likely when the draws are independent and uniform on `[0, i]`; and
every permutation of `l` is produced by exactly one valid sequence — hence
each of the `n!` permutations has probability `1/n!`. -/
theorem shuffle_fisher_yates_uniform (l : List Nat) (hl : l.Nodup) :
    (∀ rand : List Nat, (shuffle l rand).Perm l) ∧
    (allValidRands l.length).length = l.length.factorial ∧
    ∀ p : List Nat,
      ((allValidRands l.length).map (fun r => shuffle l r)).count p =
        if p.Perm l then 1 else 0 :=
  ⟨fun rand => shuffle_perm l rand, length_allValidRands l.length,
    fy_count_core l.length l rfl hl⟩

/-- Witness for C6 at the concrete input `[0, 1, 2]`. -/
theorem shuffle_fisher_yates_uniform_witness :
    ([0, 1, 2] : List Nat).Nodup ∧
    ((∀ rand : List Nat, (shuffle [0, 1, 2] rand).Perm [0, 1, 2]) ∧
      (allValidRands ([0, 1, 2] : List Nat).length).length =
        ([0, 1, 2] : List Nat).length.factorial ∧
      ∀ p : List Nat,
        ((allValidRands ([0, 1, 2] : List Nat).length).map
          (fun r => shuffle [0, 1, 2] r)).count p =
          if p.Perm [0, 1, 2] then 1 else 0) :=
  ⟨by decide, shuffle_fisher_yates_uniform [0, 1, 2] (by decide)⟩

/-- C9 (amended): the prize listing reports `alreadyDrawn` as the
from-scratch sum of winner counts over the prize's draws, and reports
`remaining` as the declared quantity minus that total, clamped below at 0
(`Math.max(quantity - drawn, 0)`) — not the plain difference. -/
theorem prize_remaining_clamped (s : Store) (sid : String) (v : PrizeView)
    (hv : v ∈ listPrizes s sid) :
    v.alreadyDrawn = totalDrawnFor s sid v.id ∧
    (v.remaining : Int) =
      max ((v.quantity : Int) - (v.alreadyDrawn : Int)) 0 := by
  unfold listPrizes at hv
  obtain ⟨p, hp, rfl⟩ := List.mem_map.mp hv
  refine ⟨rfl, ?_⟩
  dsimp only
  omega

/-- Witness for C9's amended statement: in a store where the single-unit
prize already has one winner, the listing reports `alreadyDrawn = 1`,
`remaining = 0 = max(1 - 1, 0)`. -/
theorem prize_remaining_clamped_witness :
    (⟨"p1", "Mug", 1, 1, 0⟩ : PrizeView) ∈ listPrizes wonStore "s1" ∧
    ((⟨"p1", "Mug", 1, 1, 0⟩ : PrizeView).alreadyDrawn =
      totalDrawnFor wonStore "s1" (⟨"p1", "Mug", 1, 1, 0⟩ : PrizeView).id ∧
    ((⟨"p1", "Mug", 1, 1, 0⟩ : PrizeView).remaining : Int) =
      max (((⟨"p1", "Mug", 1, 1, 0⟩ : PrizeView).quantity : Int) -
        ((⟨"p1", "Mug", 1, 1, 0⟩ : PrizeView).alreadyDrawn : Int)) 0) :=
  ⟨by decide, prize_remaining_clamped wonStore "s1" ⟨"p1", "Mug", 1, 1, 0⟩
    (by decide)⟩

/-- Counterexample for C9 as stated: in the reachable state produced by the
over-draw of C7 (prize quantity 1, two winners recorded), the listing
reports `remaining = 0`, while declared quantity minus total `Winner` rows
is `-1`; the reported value is the clamped difference, not the plain one. -/
theorem prize_remaining_cex :
    (listPrizes (runDraw demoStore "s1" demoBody [0, 0] "d1").2.1 "s1").map
        (fun v => (v.remaining : Int)) = [0] ∧
    (listPrizes (runDraw demoStore "s1" demoBody [0, 0] "d1").2.1 "s1").map
        (fun v => (v.quantity : Int) -
          (totalDrawnFor (runDraw demoStore "s1" demoBody [0, 0] "d1").2.1
            "s1" v.id : Int)) = [-1] ∧
    ((0 : Int) ≠ -1) := by
  decide

end Doorprize
